import Mathlib

/-!
Verification of the FSST decompression core in
`src/cpp/src/mlt/decode/fsst/fsst.h` (function `fsst_decompress` and the
`fsst_decoder_t` structure).

Modelling choices (shallow embedding):

* Bytes and machine words are `Nat`.  The compressed input string is a total
  function `strIn : Nat → Nat` together with its length `lenIn` (mirroring the
  C pointer + length pair; reading past `lenIn`, which the C code does on a
  malformed stream ending in an escape byte, simply reads whatever the
  function yields there, like reading adjacent memory).  The output buffer is
  a total function `Nat → Nat` (the address space seen from `output`); writes
  are `Function.update`.  A write at an index `≥ size` models an out-of-bounds
  write of the C code.
* `symbol[code]` is an `unsigned long long` holding the symbol bytes in
  little-endian order; byte `j` of a word `w` is `w / 256 ^ j % 256`.
* The single genuine `size_t` wrap in the code is `output[size-1]` when
  `size = 0`: we model that index as `(size + (2 ^ 64 - 1)) % 2 ^ 64`, the
  64-bit value of `size - 1`.
* Cursors `posIn`, `posOut` are `Nat`; the loop recurses on `lenIn - posIn`,
  exactly the C loop's progress measure.
-/

/-- Decoder table, mirroring `fsst_decoder_t`: `zeroTerminated` is the
`unsigned char` flag, `len x` the byte length of symbol `x`, `symbol x` the
64-bit little-endian word holding the symbol bytes.  Only indices `x < 255`
are ever consulted by the decoder. -/
structure fsst_decoder_t where
  zeroTerminated : Nat
  len : Nat → Nat
  symbol : Nat → Nat

/-- Byte `j` (little-endian) of the word `w`: what
`((unsigned char*) &w)[j]` reads on a little-endian machine. -/
def symByte (w j : Nat) : Nat := w / 256 ^ j % 256

/-- The inner copy loop of `fsst_decompress`:
`for(; posWrite < endWrite; posWrite++) strOut[posWrite] = symbolPointer[posWrite];`
with `symbolPointer` the (negatively offset) pointer into the symbol word. -/
def copyLoop (symbolPointer : Nat → Nat) (posWrite endWrite : Nat)
    (strOut : Nat → Nat) : Nat → Nat :=
  if h : posWrite < endWrite then
    copyLoop symbolPointer (posWrite + 1) endWrite
      (Function.update strOut posWrite (symbolPointer posWrite))
  else strOut
termination_by endWrite - posWrite
decreasing_by omega

/-- The main `while (posIn < lenIn)` loop of `fsst_decompress`, with explicit
input cursor `posIn`, output cursor `posOut` and output buffer `strOut`.
Returns the final `(posIn, posOut, strOut)`.  The symbol branch mirrors

    size_t posWrite = posOut, endWrite = posOut + len[code];
    unsigned char *symbolPointer = ((unsigned char*) &symbol[code]) - posWrite;
    if ((posOut = endWrite) > size) endWrite = size;
    for (; posWrite < endWrite; posWrite++) strOut[posWrite] = symbolPointer[posWrite];

and the escape branch mirrors

    if (posOut < size) strOut[posOut] = strIn[posIn]; posIn++; posOut++;

where `code = strIn[posIn++]` has already advanced `posIn` past the escape
marker. -/
def decompressLoop (d : fsst_decoder_t) (strIn : Nat → Nat) (lenIn size : Nat)
    (posIn posOut : Nat) (strOut : Nat → Nat) : Nat × Nat × (Nat → Nat) :=
  if h : posIn < lenIn then
    if strIn posIn < 255 then
      decompressLoop d strIn lenIn size (posIn + 1) (posOut + d.len (strIn posIn))
        (copyLoop (fun i => symByte (d.symbol (strIn posIn)) (i - posOut)) posOut
          (if posOut + d.len (strIn posIn) > size then size
           else posOut + d.len (strIn posIn))
          strOut)
    else
      decompressLoop d strIn lenIn size (posIn + 2) (posOut + 1)
        (if posOut < size then Function.update strOut posOut (strIn (posIn + 1))
         else strOut)
  else (posIn, posOut, strOut)
termination_by lenIn - posIn
decreasing_by
  · omega
  · omega

/-- The 64-bit (`size_t`) value of `size - 1`: the index of the forced
zero-terminator write `strOut[size-1]`.  For `1 ≤ size < 2 ^ 64` this is
`size - 1`; for `size = 0` it wraps to `2 ^ 64 - 1`. -/
def termIndex (size : Nat) : Nat := (size + (2 ^ 64 - 1)) % 2 ^ 64

/-- `fsst_decompress`: run the decompression loop from both cursors at 0, then
apply `if (posOut >= size && (decoder->zeroTerminated & 1)) strOut[size-1] = 0;`
and return `posOut` together with the final buffer. -/
def fsst_decompress (decoder : fsst_decoder_t) (lenIn : Nat) (strIn : Nat → Nat)
    (size : Nat) (output : Nat → Nat) : Nat × (Nat → Nat) :=
  let r := decompressLoop decoder strIn lenIn size 0 0 output
  if size ≤ r.2.1 ∧ decoder.zeroTerminated % 2 = 1 then
    (r.2.1, Function.update r.2.2 (termIndex size) 0)
  else (r.2.1, r.2.2)

/-- First `n` little-endian bytes of the word `w`, as a list. -/
def symBytes (w n : Nat) : List Nat := (List.range n).map (fun j => symByte w j)

/-- Reference denotation: the bytes logically produced by the decoder from
input position `posIn` onwards (a symbol unit contributes its `len` bytes, an
escape unit its literal byte).  Defined by the same recursion as the loop. -/
def decompTail (d : fsst_decoder_t) (strIn : Nat → Nat) (lenIn posIn : Nat) :
    List Nat :=
  if h : posIn < lenIn then
    if strIn posIn < 255 then
      symBytes (d.symbol (strIn posIn)) (d.len (strIn posIn)) ++
        decompTail d strIn lenIn (posIn + 1)
    else
      strIn (posIn + 1) :: decompTail d strIn lenIn (posIn + 2)
  else []
termination_by lenIn - posIn
decreasing_by
  · omega
  · omega

/-- The final value of the input cursor when the loop starts at `posIn`. -/
def finalPosIn (strIn : Nat → Nat) (lenIn posIn : Nat) : Nat :=
  if h : posIn < lenIn then
    if strIn posIn < 255 then finalPosIn strIn lenIn (posIn + 1)
    else finalPosIn strIn lenIn (posIn + 2)
  else posIn
termination_by lenIn - posIn
decreasing_by
  · omega
  · omega

/-- Logical output length, directly as the spec states it: the sum of
`len[code]` over non-escape code bytes plus 1 per escape unit. -/
def logicalLength (d : fsst_decoder_t) (strIn : Nat → Nat) (lenIn posIn : Nat) :
    Nat :=
  if h : posIn < lenIn then
    if strIn posIn < 255 then
      d.len (strIn posIn) + logicalLength d strIn lenIn (posIn + 1)
    else 1 + logicalLength d strIn lenIn (posIn + 2)
  else 0
termination_by lenIn - posIn
decreasing_by
  · omega
  · omega

/-- Buffer produced by writing the clamped prefix of `S` at base offset
`base` into a buffer of capacity `size` whose prior contents are `buf`. -/
def bufSpec (S : List Nat) (base size : Nat) (buf : Nat → Nat) : Nat → Nat :=
  fun i => if base ≤ i ∧ i < size ∧ i - base < S.length then S.getD (i - base) 0
           else buf i

/-- Straightforward per-byte copy described by the spec, auxiliary recursion:
write bytes `0, …, n-1` of the word `w` at positions `posOut, …, posOut+n-1`. -/
def clampedCopyAux (w posOut : Nat) (buf : Nat → Nat) : Nat → (Nat → Nat)
  | 0 => buf
  | n + 1 =>
      Function.update (clampedCopyAux w posOut buf n) (posOut + n) (symByte w n)

/-- Modelled from the spec: the "straightforward clamped per-byte copy" of the
design notes — for each offset `j` in `[0, min (len, size - posOut))`, write
byte `j` of the symbol's little-endian word to output position `posOut + j`. -/
def clampedCopy (w lenC posOut size : Nat) (buf : Nat → Nat) : Nat → Nat :=
  clampedCopyAux w posOut buf (min lenC (size - posOut))

/-- The decompression loop with the symbol-branch copy replaced by the
spec's clamped per-byte copy; everything else as in `decompressLoop`. -/
def decompressLoopClamped (d : fsst_decoder_t) (strIn : Nat → Nat)
    (lenIn size : Nat) (posIn posOut : Nat) (strOut : Nat → Nat) :
    Nat × Nat × (Nat → Nat) :=
  if h : posIn < lenIn then
    if strIn posIn < 255 then
      decompressLoopClamped d strIn lenIn size (posIn + 1)
        (posOut + d.len (strIn posIn))
        (clampedCopy (d.symbol (strIn posIn)) (d.len (strIn posIn)) posOut size
          strOut)
    else
      decompressLoopClamped d strIn lenIn size (posIn + 2) (posOut + 1)
        (if posOut < size then Function.update strOut posOut (strIn (posIn + 1))
         else strOut)
  else (posIn, posOut, strOut)
termination_by lenIn - posIn
decreasing_by
  · omega
  · omega

/-- `fsst_decompress` built on the clamped per-byte copy loop. -/
def fsst_decompress_clamped (decoder : fsst_decoder_t) (lenIn : Nat)
    (strIn : Nat → Nat) (size : Nat) (output : Nat → Nat) : Nat × (Nat → Nat) :=
  let r := decompressLoopClamped decoder strIn lenIn size 0 0 output
  if size ≤ r.2.1 ∧ decoder.zeroTerminated % 2 = 1 then
    (r.2.1, Function.update r.2.2 (termIndex size) 0)
  else (r.2.1, r.2.2)

theorem symBytes_length (w n : Nat) : (symBytes w n).length = n := by
  simp [symBytes]

theorem symBytes_getD (w n j : Nat) (h : j < n) :
    (symBytes w n).getD j 0 = symByte w j := by
  simp [symBytes, List.getD_eq_getElem?_getD, List.getElem?_map,
    List.getElem?_range h]

theorem copyLoop_eq (symbolPointer : Nat → Nat) :
    ∀ (n posWrite endWrite : Nat), endWrite - posWrite ≤ n →
    ∀ strOut : Nat → Nat,
    copyLoop symbolPointer posWrite endWrite strOut =
      fun i => if posWrite ≤ i ∧ i < endWrite then symbolPointer i
               else strOut i := by
  intro n
  induction n with
  | zero =>
      intro posWrite endWrite hle strOut
      rw [copyLoop]
      rw [dif_neg (by omega)]
      funext i
      rw [if_neg (by omega)]
  | succ n ih =>
      intro posWrite endWrite hle strOut
      rw [copyLoop]
      by_cases h : posWrite < endWrite
      · rw [dif_pos h, ih (posWrite + 1) endWrite (by omega)]
        funext i
        by_cases h1 : posWrite + 1 ≤ i ∧ i < endWrite
        · rw [if_pos h1, if_pos (by omega)]
        · rw [if_neg h1, Function.update_apply]
          by_cases h2 : i = posWrite
          · rw [if_pos h2, if_pos (by omega), h2]
          · rw [if_neg h2, if_neg (by omega)]
      · rw [dif_neg h]
        funext i
        rw [if_neg (by omega)]

theorem copyLoop_eq_fn (symbolPointer : Nat → Nat) (posWrite endWrite : Nat)
    (strOut : Nat → Nat) :
    copyLoop symbolPointer posWrite endWrite strOut =
      fun i => if posWrite ≤ i ∧ i < endWrite then symbolPointer i
               else strOut i :=
  copyLoop_eq symbolPointer (endWrite - posWrite) posWrite endWrite le_rfl strOut

theorem clampedCopyAux_eq (w posOut : Nat) (buf : Nat → Nat) :
    ∀ n, clampedCopyAux w posOut buf n =
      fun i => if posOut ≤ i ∧ i < posOut + n then symByte w (i - posOut)
               else buf i := by
  intro n
  induction n with
  | zero =>
      funext i
      rw [clampedCopyAux, if_neg (by omega)]
  | succ n ih =>
      funext i
      rw [clampedCopyAux, ih, Function.update_apply]
      by_cases h2 : i = posOut + n
      · rw [if_pos h2, if_pos (by omega), h2, Nat.add_sub_cancel_left]
      · rw [if_neg h2]
        by_cases h1 : posOut ≤ i ∧ i < posOut + n
        · rw [if_pos h1, if_pos (by omega)]
        · rw [if_neg h1, if_neg (by omega)]

theorem bufSpec_nil (base size : Nat) (buf : Nat → Nat) :
    bufSpec [] base size buf = buf := by
  funext i
  simp [bufSpec]

theorem bufSpec_symStep (w lenC : Nat) (T : List Nat) (posOut size : Nat)
    (buf : Nat → Nat) :
    bufSpec T (posOut + lenC) size
      (copyLoop (fun i => symByte w (i - posOut)) posOut
        (if posOut + lenC > size then size else posOut + lenC) buf) =
    bufSpec (symBytes w lenC ++ T) posOut size buf := by
  rw [copyLoop_eq_fn]
  funext i
  simp only [bufSpec, List.length_append, symBytes_length]
  by_cases hA : posOut + lenC ≤ i ∧ i < size ∧ i - (posOut + lenC) < T.length
  · rw [if_pos hA,
      if_pos (show posOut ≤ i ∧ i < size ∧ i - posOut < lenC + T.length by omega)]
    rw [List.getD_append_right _ _ _ _ (by rw [symBytes_length]; omega)]
    rw [symBytes_length, Nat.sub_sub]
  · rw [if_neg hA]
    by_cases hB : posOut ≤ i ∧
        i < (if posOut + lenC > size then size else posOut + lenC)
    · have hi : i < size ∧ i - posOut < lenC := by
        by_cases hEW : posOut + lenC > size
        · rw [if_pos hEW] at hB; omega
        · rw [if_neg hEW] at hB; omega
      rw [if_pos hB,
        if_pos (show posOut ≤ i ∧ i < size ∧ i - posOut < lenC + T.length by omega)]
      rw [List.getD_append _ _ _ _ (by rw [symBytes_length]; omega)]
      rw [symBytes_getD _ _ _ (by omega)]
    · rw [if_neg hB]
      rw [if_neg (by
        intro hR
        by_cases hEW : posOut + lenC > size
        · rw [if_pos hEW] at hB; omega
        · rw [if_neg hEW] at hB; omega)]

theorem bufSpec_escStep (b : Nat) (T : List Nat) (posOut size : Nat)
    (buf : Nat → Nat) :
    bufSpec T (posOut + 1) size
      (if posOut < size then Function.update buf posOut b else buf) =
    bufSpec (b :: T) posOut size buf := by
  funext i
  simp only [bufSpec, List.length_cons]
  by_cases hA : posOut + 1 ≤ i ∧ i < size ∧ i - (posOut + 1) < T.length
  · rw [if_pos hA,
      if_pos (show posOut ≤ i ∧ i < size ∧ i - posOut < T.length + 1 by omega)]
    have h1 : i - posOut = (i - (posOut + 1)) + 1 := by omega
    rw [h1, List.getD_cons_succ]
  · rw [if_neg hA]
    by_cases h2 : i = posOut ∧ i < size
    · rw [if_pos (show posOut ≤ i ∧ i < size ∧ i - posOut < T.length + 1 by omega)]
      rw [if_pos (show posOut < size by omega), Function.update_apply,
        if_pos h2.1, h2.1]
      rw [Nat.sub_self, List.getD_cons_zero]
    · have hbuf : (if posOut < size then Function.update buf posOut b else buf) i
          = buf i := by
        by_cases h3 : posOut < size
        · rw [if_pos h3, Function.update_apply,
            if_neg (by intro h4; exact h2 ⟨h4, h4 ▸ h3⟩)]
        · rw [if_neg h3]
      rw [hbuf, if_neg (by intro hR; omega)]

theorem decompressLoop_spec_aux (d : fsst_decoder_t) (strIn : Nat → Nat)
    (lenIn size : Nat) :
    ∀ (n posIn posOut : Nat) (buf : Nat → Nat), lenIn - posIn ≤ n →
    decompressLoop d strIn lenIn size posIn posOut buf =
      (finalPosIn strIn lenIn posIn,
       posOut + (decompTail d strIn lenIn posIn).length,
       bufSpec (decompTail d strIn lenIn posIn) posOut size buf) := by
  intro n
  induction n with
  | zero =>
      intro posIn posOut buf hle
      have h : ¬ posIn < lenIn := by omega
      rw [decompressLoop, dif_neg h, finalPosIn, dif_neg h, decompTail, dif_neg h,
        bufSpec_nil]
      simp
  | succ n ih =>
      intro posIn posOut buf hle
      by_cases h : posIn < lenIn
      · rw [decompressLoop, dif_pos h, finalPosIn, dif_pos h, decompTail,
          dif_pos h]
        by_cases hc : strIn posIn < 255
        · rw [if_pos hc, if_pos hc, if_pos hc]
          rw [ih (posIn + 1) _ _ (by omega)]
          simp only [Prod.mk.injEq]
          refine ⟨trivial, ?_, ?_⟩
          · rw [List.length_append, symBytes_length]
            omega
          · exact bufSpec_symStep _ _ _ _ _ _
        · rw [if_neg hc, if_neg hc, if_neg hc]
          rw [ih (posIn + 2) _ _ (by omega)]
          simp only [Prod.mk.injEq]
          refine ⟨trivial, ?_, ?_⟩
          · rw [List.length_cons]
            omega
          · exact bufSpec_escStep _ _ _ _ _
      · rw [decompressLoop, dif_neg h, finalPosIn, dif_neg h, decompTail,
          dif_neg h, bufSpec_nil]
        simp

theorem decompressLoop_spec (d : fsst_decoder_t) (strIn : Nat → Nat)
    (lenIn size posIn posOut : Nat) (buf : Nat → Nat) :
    decompressLoop d strIn lenIn size posIn posOut buf =
      (finalPosIn strIn lenIn posIn,
       posOut + (decompTail d strIn lenIn posIn).length,
       bufSpec (decompTail d strIn lenIn posIn) posOut size buf) :=
  decompressLoop_spec_aux d strIn lenIn size (lenIn - posIn) posIn posOut buf
    le_rfl

theorem fsst_decompress_spec (d : fsst_decoder_t) (lenIn : Nat)
    (strIn : Nat → Nat) (size : Nat) (output : Nat → Nat) :
    fsst_decompress d lenIn strIn size output =
      ((decompTail d strIn lenIn 0).length,
       if size ≤ (decompTail d strIn lenIn 0).length ∧
           d.zeroTerminated % 2 = 1 then
         Function.update (bufSpec (decompTail d strIn lenIn 0) 0 size output)
           (termIndex size) 0
       else bufSpec (decompTail d strIn lenIn 0) 0 size output) := by
  simp only [fsst_decompress, decompressLoop_spec, Nat.zero_add]
  split <;> rfl

theorem decompTail_length_aux (d : fsst_decoder_t) (strIn : Nat → Nat)
    (lenIn : Nat) :
    ∀ n posIn, lenIn - posIn ≤ n →
    (decompTail d strIn lenIn posIn).length = logicalLength d strIn lenIn posIn := by
  intro n
  induction n with
  | zero =>
      intro posIn hle
      have h : ¬ posIn < lenIn := by omega
      rw [decompTail, dif_neg h, logicalLength, dif_neg h]
      rfl
  | succ n ih =>
      intro posIn hle
      by_cases h : posIn < lenIn
      · rw [decompTail, dif_pos h, logicalLength, dif_pos h]
        by_cases hc : strIn posIn < 255
        · rw [if_pos hc, if_pos hc, List.length_append, symBytes_length,
            ih (posIn + 1) (by omega)]
        · rw [if_neg hc, if_neg hc, List.length_cons, ih (posIn + 2) (by omega)]
          omega
      · rw [decompTail, dif_neg h, logicalLength, dif_neg h]
        rfl

theorem decompTail_length (d : fsst_decoder_t) (strIn : Nat → Nat)
    (lenIn posIn : Nat) :
    (decompTail d strIn lenIn posIn).length = logicalLength d strIn lenIn posIn :=
  decompTail_length_aux d strIn lenIn (lenIn - posIn) posIn le_rfl

theorem finalPosIn_bounds_aux (strIn : Nat → Nat) (lenIn : Nat) :
    ∀ n posIn, lenIn - posIn ≤ n →
    posIn ≤ finalPosIn strIn lenIn posIn ∧ lenIn ≤ finalPosIn strIn lenIn posIn := by
  intro n
  induction n with
  | zero =>
      intro posIn hle
      rw [finalPosIn, dif_neg (by omega)]
      omega
  | succ n ih =>
      intro posIn hle
      by_cases h : posIn < lenIn
      · rw [finalPosIn, dif_pos h]
        by_cases hc : strIn posIn < 255
        · rw [if_pos hc]
          have := ih (posIn + 1) (by omega)
          omega
        · rw [if_neg hc]
          have := ih (posIn + 2) (by omega)
          omega
      · rw [finalPosIn, dif_neg h]
        omega

theorem finalPosIn_bounds (strIn : Nat → Nat) (lenIn posIn : Nat) :
    posIn ≤ finalPosIn strIn lenIn posIn ∧ lenIn ≤ finalPosIn strIn lenIn posIn :=
  finalPosIn_bounds_aux strIn lenIn (lenIn - posIn) posIn le_rfl

theorem finalPosIn_wf_aux (strIn : Nat → Nat) (lenIn : Nat)
    (hwf : lenIn = 0 ∨ strIn (lenIn - 1) < 255) :
    ∀ n posIn, lenIn - posIn ≤ n → posIn ≤ lenIn →
    finalPosIn strIn lenIn posIn = lenIn := by
  intro n
  induction n with
  | zero =>
      intro posIn hle hpos
      rw [finalPosIn, dif_neg (by omega)]
      omega
  | succ n ih =>
      intro posIn hle hpos
      by_cases h : posIn < lenIn
      · rw [finalPosIn, dif_pos h]
        by_cases hc : strIn posIn < 255
        · rw [if_pos hc]
          exact ih (posIn + 1) (by omega) (by omega)
        · rw [if_neg hc]
          have hne : posIn ≠ lenIn - 1 := by
            intro he
            rcases hwf with h0 | h1
            · omega
            · rw [he] at hc
              exact hc h1
          exact ih (posIn + 2) (by omega) (by omega)
      · rw [finalPosIn, dif_neg h]
        omega

theorem finalPosIn_wf (strIn : Nat → Nat) (lenIn posIn : Nat)
    (hwf : lenIn = 0 ∨ strIn (lenIn - 1) < 255) (hpos : posIn ≤ lenIn) :
    finalPosIn strIn lenIn posIn = lenIn :=
  finalPosIn_wf_aux strIn lenIn hwf (lenIn - posIn) posIn le_rfl hpos

theorem logicalLength_congr_aux (d : fsst_decoder_t) (s1 s2 : Nat → Nat)
    (lenIn : Nat) (hag : ∀ i, i < lenIn → s1 i = s2 i) :
    ∀ n posIn, lenIn - posIn ≤ n →
    logicalLength d s1 lenIn posIn = logicalLength d s2 lenIn posIn := by
  intro n
  induction n with
  | zero =>
      intro posIn hle
      rw [logicalLength, dif_neg (by omega), logicalLength, dif_neg (by omega)]
  | succ n ih =>
      intro posIn hle
      by_cases h : posIn < lenIn
      · have he : s1 posIn = s2 posIn := hag posIn h
        conv_lhs => rw [logicalLength]
        conv_rhs => rw [logicalLength]
        rw [dif_pos h, dif_pos h, ← he]
        by_cases hc : s1 posIn < 255
        · rw [if_pos hc, if_pos hc, ih (posIn + 1) (by omega)]
        · rw [if_neg hc, if_neg hc, ih (posIn + 2) (by omega)]
      · rw [logicalLength, dif_neg h, logicalLength, dif_neg h]

theorem logicalLength_congr (d : fsst_decoder_t) (s1 s2 : Nat → Nat)
    (lenIn posIn : Nat) (hag : ∀ i, i < lenIn → s1 i = s2 i) :
    logicalLength d s1 lenIn posIn = logicalLength d s2 lenIn posIn :=
  logicalLength_congr_aux d s1 s2 lenIn hag (lenIn - posIn) posIn le_rfl

theorem decompTail_congr_aux (d : fsst_decoder_t) (s1 s2 : Nat → Nat)
    (lenIn : Nat) (hag : ∀ i, i < lenIn → s1 i = s2 i)
    (hwf : lenIn = 0 ∨ s1 (lenIn - 1) < 255) :
    ∀ n posIn, lenIn - posIn ≤ n →
    decompTail d s1 lenIn posIn = decompTail d s2 lenIn posIn := by
  intro n
  induction n with
  | zero =>
      intro posIn hle
      rw [decompTail, dif_neg (by omega), decompTail, dif_neg (by omega)]
  | succ n ih =>
      intro posIn hle
      by_cases h : posIn < lenIn
      · have he : s1 posIn = s2 posIn := hag posIn h
        conv_lhs => rw [decompTail]
        conv_rhs => rw [decompTail]
        rw [dif_pos h, dif_pos h, ← he]
        by_cases hc : s1 posIn < 255
        · rw [if_pos hc, if_pos hc, ih (posIn + 1) (by omega)]
        · rw [if_neg hc, if_neg hc, ih (posIn + 2) (by omega)]
          have hne : posIn ≠ lenIn - 1 := by
            intro he2
            rcases hwf with h0 | h1
            · omega
            · rw [he2] at hc
              exact hc h1
          rw [hag (posIn + 1) (by omega)]
      · rw [decompTail, dif_neg h, decompTail, dif_neg h]

theorem decompTail_congr (d : fsst_decoder_t) (s1 s2 : Nat → Nat)
    (lenIn posIn : Nat) (hag : ∀ i, i < lenIn → s1 i = s2 i)
    (hwf : lenIn = 0 ∨ s1 (lenIn - 1) < 255) :
    decompTail d s1 lenIn posIn = decompTail d s2 lenIn posIn :=
  decompTail_congr_aux d s1 s2 lenIn hag hwf (lenIn - posIn) posIn le_rfl

theorem symBytes_congr (w w' n : Nat)
    (hs : ∀ j, j < n → symByte w' j = symByte w j) :
    symBytes w' n = symBytes w n := by
  unfold symBytes
  refine List.map_congr_left ?_
  intro a ha
  exact hs a (List.mem_range.mp ha)

theorem decompTail_congr_table_aux (d d' : fsst_decoder_t) (hl : d'.len = d.len)
    (hs : ∀ c j, j < d.len c → symByte (d'.symbol c) j = symByte (d.symbol c) j)
    (strIn : Nat → Nat) (lenIn : Nat) :
    ∀ n posIn, lenIn - posIn ≤ n →
    decompTail d' strIn lenIn posIn = decompTail d strIn lenIn posIn := by
  intro n
  induction n with
  | zero =>
      intro posIn hle
      rw [decompTail, dif_neg (by omega), decompTail, dif_neg (by omega)]
  | succ n ih =>
      intro posIn hle
      by_cases h : posIn < lenIn
      · conv_lhs => rw [decompTail]
        conv_rhs => rw [decompTail]
        rw [dif_pos h, dif_pos h]
        by_cases hc : strIn posIn < 255
        · rw [if_pos hc, if_pos hc, ih (posIn + 1) (by omega), hl,
            symBytes_congr _ _ _ (hs (strIn posIn))]
        · rw [if_neg hc, if_neg hc, ih (posIn + 2) (by omega)]
      · rw [decompTail, dif_neg h, decompTail, dif_neg h]

theorem decompTail_congr_table (d d' : fsst_decoder_t) (hl : d'.len = d.len)
    (hs : ∀ c j, j < d.len c → symByte (d'.symbol c) j = symByte (d.symbol c) j)
    (strIn : Nat → Nat) (lenIn posIn : Nat) :
    decompTail d' strIn lenIn posIn = decompTail d strIn lenIn posIn :=
  decompTail_congr_table_aux d d' hl hs strIn lenIn (lenIn - posIn) posIn le_rfl

theorem clampedCopy_eq_copyLoop (w lenC posOut size : Nat) (buf : Nat → Nat) :
    clampedCopy w lenC posOut size buf =
      copyLoop (fun i => symByte w (i - posOut)) posOut
        (if posOut + lenC > size then size else posOut + lenC) buf := by
  rw [copyLoop_eq_fn, clampedCopy, clampedCopyAux_eq]
  funext i
  by_cases hEW : posOut + lenC > size
  · rw [if_pos hEW] at *
    by_cases h1 : posOut ≤ i ∧ i < posOut + min lenC (size - posOut)
    · rw [if_pos h1, if_pos (by omega)]
    · rw [if_neg h1, if_neg (by omega)]
  · rw [if_neg hEW] at *
    by_cases h1 : posOut ≤ i ∧ i < posOut + min lenC (size - posOut)
    · rw [if_pos h1, if_pos (by omega)]
    · rw [if_neg h1, if_neg (by omega)]

theorem decompressLoopClamped_eq_aux (d : fsst_decoder_t) (strIn : Nat → Nat)
    (lenIn size : Nat) :
    ∀ n posIn posOut (buf : Nat → Nat), lenIn - posIn ≤ n →
    decompressLoopClamped d strIn lenIn size posIn posOut buf =
      decompressLoop d strIn lenIn size posIn posOut buf := by
  intro n
  induction n with
  | zero =>
      intro posIn posOut buf hle
      rw [decompressLoopClamped, dif_neg (by omega), decompressLoop,
        dif_neg (by omega)]
  | succ n ih =>
      intro posIn posOut buf hle
      by_cases h : posIn < lenIn
      · rw [decompressLoopClamped, dif_pos h, decompressLoop, dif_pos h]
        by_cases hc : strIn posIn < 255
        · rw [if_pos hc, if_pos hc, clampedCopy_eq_copyLoop,
            ih (posIn + 1) _ _ (by omega)]
        · rw [if_neg hc, if_neg hc, ih (posIn + 2) _ _ (by omega)]
      · rw [decompressLoopClamped, dif_neg h, decompressLoop, dif_neg h]

theorem decompressLoopClamped_eq (d : fsst_decoder_t) (strIn : Nat → Nat)
    (lenIn size posIn posOut : Nat) (buf : Nat → Nat) :
    decompressLoopClamped d strIn lenIn size posIn posOut buf =
      decompressLoop d strIn lenIn size posIn posOut buf :=
  decompressLoopClamped_eq_aux d strIn lenIn size (lenIn - posIn) posIn posOut
    buf le_rfl

theorem termIndex_eq (size : Nat) (h1 : 1 ≤ size) (h2 : size < 2 ^ 64) :
    termIndex size = size - 1 := by
  unfold termIndex
  have hp : (2 : Nat) ^ 64 = 18446744073709551616 := by norm_num
  rw [hp]
  rw [hp] at h2
  omega

theorem termIndex_zero : termIndex 0 = 2 ^ 64 - 1 := by
  unfold termIndex
  norm_num

/-- Example decoder table of the spec's scenario: code 5 maps to "he"
(length 2, little-endian word 0x6568), code 6 to "llo" (length 3, word
0x6f6c6c), all other codes to the single byte 65; not zero-terminated. -/
def exTable : fsst_decoder_t :=
  ⟨0, fun c => if c = 5 then 2 else if c = 6 then 3 else 1,
     fun c => if c = 5 then 25960 else if c = 6 then 7302252 else 65⟩

/-- Same example table with the zero-terminated flag set. -/
def exTableZ : fsst_decoder_t :=
  ⟨1, fun c => if c = 5 then 2 else if c = 6 then 3 else 1,
     fun c => if c = 5 then 25960 else if c = 6 then 7302252 else 65⟩

/-- Example compressed stream of the spec's scenario: `[5, 6, 255, 33]`. -/
def exStr : Nat → Nat :=
  fun i => if i = 0 then 5 else if i = 1 then 6 else if i = 2 then 255 else 33

/-- C1: for every decoder table, every well-formed compressed byte sequence
(no escape marker as its last byte) and every output buffer and capacity,
`fsst_decompress` returns the logical decompressed length: the sum of
`len[code]` over non-escape code bytes plus 1 per escape unit
(`logicalLength`).  The right-hand side mentions neither `size` nor `output`,
so the return value does not depend on them (and may exceed `size`). -/
theorem fsst_returns_logical_length (d : fsst_decoder_t) (lenIn : Nat)
    (strIn : Nat → Nat) (size : Nat) (output : Nat → Nat)
    (_hwf : lenIn = 0 ∨ strIn (lenIn - 1) < 255) :
    (fsst_decompress d lenIn strIn size output).1 =
      logicalLength d strIn lenIn 0 := by
  rw [fsst_decompress_spec]
  exact decompTail_length d strIn lenIn 0

/-- Witness for C1 at the spec's example scenario: table `exTable`, stream
`[5, 6, 255, 33]`, capacity 6; the returned length is the logical length
(which evaluates to 2 + 3 + 1 = 6). -/
theorem fsst_returns_logical_length_witness :
    ((4 : Nat) = 0 ∨ exStr (4 - 1) < 255) ∧
    (fsst_decompress exTable 4 exStr 6 (fun _ => 0)).1 =
      logicalLength exTable exStr 4 0 :=
  ⟨Or.inr (by decide),
   fsst_returns_logical_length exTable 4 exStr 6 (fun _ => 0)
     (Or.inr (by decide))⟩

/-- C2: truncation correctness.  For a well-formed compressed sequence whose
full decompression is `S = decompTail … 0` of logical length `L`,
`fsst_decompress` returns `L`, and every buffer position `i < min L size`
holds byte `i` of `S` — except the forced terminator at position `size - 1`
when the zero-terminated flag is set and truncation occurred or exactly
filled the buffer (`size ≤ L`).  For `size ≤ L` this covers the first `size`
bytes; for `L < size` it covers all `L` bytes. -/
theorem fsst_truncation_correct (d : fsst_decoder_t) (lenIn : Nat)
    (strIn : Nat → Nat) (size : Nat) (output : Nat → Nat)
    (_hwf : lenIn = 0 ∨ strIn (lenIn - 1) < 255) (hsize : size < 2 ^ 64) :
    (fsst_decompress d lenIn strIn size output).1 =
      (decompTail d strIn lenIn 0).length ∧
    ∀ i, i < min (decompTail d strIn lenIn 0).length size →
      (fsst_decompress d lenIn strIn size output).2 i =
        if d.zeroTerminated % 2 = 1 ∧
            size ≤ (decompTail d strIn lenIn 0).length ∧ i = size - 1 then 0
        else (decompTail d strIn lenIn 0).getD i 0 := by
  have hfst : (fsst_decompress d lenIn strIn size output).1 =
      (decompTail d strIn lenIn 0).length := by
    rw [fsst_decompress_spec]
  have hsnd : (fsst_decompress d lenIn strIn size output).2 =
      (if size ≤ (decompTail d strIn lenIn 0).length ∧
          d.zeroTerminated % 2 = 1 then
        Function.update (bufSpec (decompTail d strIn lenIn 0) 0 size output)
          (termIndex size) 0
      else bufSpec (decompTail d strIn lenIn 0) 0 size output) := by
    rw [fsst_decompress_spec]
  refine ⟨hfst, ?_⟩
  intro i hi
  have hiL : i < (decompTail d strIn lenIn 0).length := by omega
  have hiS : i < size := by omega
  rw [hsnd]
  by_cases hz : size ≤ (decompTail d strIn lenIn 0).length ∧
      d.zeroTerminated % 2 = 1
  · rw [if_pos hz, Function.update_apply, termIndex_eq size (by omega) hsize]
    by_cases hi1 : i = size - 1
    · rw [if_pos hi1, if_pos ⟨hz.2, hz.1, hi1⟩]
    · rw [if_neg hi1, if_neg (by
        intro hR
        exact hi1 hR.2.2)]
      simp only [bufSpec]
      rw [if_pos ⟨Nat.zero_le i, hiS, by omega⟩, Nat.sub_zero]
  · rw [if_neg hz]
    rw [if_neg (by
      intro hR
      exact hz ⟨hR.2.1, hR.1⟩)]
    simp only [bufSpec]
    rw [if_pos ⟨Nat.zero_le i, hiS, by omega⟩, Nat.sub_zero]

/-- Witness for C2 with the example table (zero-terminated) and stream
`[5, 6, 255, 33]` truncated to capacity 3. -/
theorem fsst_truncation_correct_witness :
    (((4 : Nat) = 0 ∨ exStr (4 - 1) < 255) ∧ (3 : Nat) < 2 ^ 64) ∧
    ((fsst_decompress exTableZ 4 exStr 3 (fun _ => 0)).1 =
      (decompTail exTableZ exStr 4 0).length ∧
    ∀ i, i < min (decompTail exTableZ exStr 4 0).length 3 →
      (fsst_decompress exTableZ 4 exStr 3 (fun _ => 0)).2 i =
        if exTableZ.zeroTerminated % 2 = 1 ∧
            3 ≤ (decompTail exTableZ exStr 4 0).length ∧ i = 3 - 1 then 0
        else (decompTail exTableZ exStr 4 0).getD i 0) :=
  ⟨⟨Or.inr (by decide), by norm_num⟩,
   fsst_truncation_correct exTableZ 4 exStr 3 (fun _ => 0)
     (Or.inr (by decide)) (by norm_num)⟩

/-- C3: zero-termination under truncation.  When the zero-terminated flag is
set and `size ≤ L` (the returned logical length), the byte at buffer
position `size - 1` is 0 after the call, regardless of what the loop put
there; when `L < size`, no forced write occurs and position `size - 1`
keeps its prior value. -/
theorem fsst_zero_termination (d : fsst_decoder_t) (lenIn : Nat)
    (strIn : Nat → Nat) (size : Nat) (output : Nat → Nat)
    (hzt : d.zeroTerminated % 2 = 1) (h1 : 1 ≤ size) (h2 : size < 2 ^ 64) :
    (size ≤ (fsst_decompress d lenIn strIn size output).1 →
      (fsst_decompress d lenIn strIn size output).2 (size - 1) = 0) ∧
    ((fsst_decompress d lenIn strIn size output).1 < size →
      (fsst_decompress d lenIn strIn size output).2 (size - 1) =
        output (size - 1)) := by
  have hfst : (fsst_decompress d lenIn strIn size output).1 =
      (decompTail d strIn lenIn 0).length := by
    rw [fsst_decompress_spec]
  have hsnd : (fsst_decompress d lenIn strIn size output).2 =
      (if size ≤ (decompTail d strIn lenIn 0).length ∧
          d.zeroTerminated % 2 = 1 then
        Function.update (bufSpec (decompTail d strIn lenIn 0) 0 size output)
          (termIndex size) 0
      else bufSpec (decompTail d strIn lenIn 0) 0 size output) := by
    rw [fsst_decompress_spec]
  rw [hfst, hsnd]
  constructor
  · intro hL
    rw [if_pos ⟨hL, hzt⟩, Function.update_apply, termIndex_eq size h1 h2,
      if_pos rfl]
  · intro hL
    rw [if_neg (by
      intro hR
      omega)]
    simp only [bufSpec]
    rw [if_neg (by
      intro hR
      omega)]

/-- Witness for C3: zero-terminated example table, stream `[5, 6, 255, 33]`
(logical length 6), capacity 3: position 2 is forced to 0. -/
theorem fsst_zero_termination_witness :
    (exTableZ.zeroTerminated % 2 = 1 ∧ (1 : Nat) ≤ 3 ∧ (3 : Nat) < 2 ^ 64) ∧
    ((3 ≤ (fsst_decompress exTableZ 4 exStr 3 (fun _ => 9)).1 →
      (fsst_decompress exTableZ 4 exStr 3 (fun _ => 9)).2 (3 - 1) = 0) ∧
    ((fsst_decompress exTableZ 4 exStr 3 (fun _ => 9)).1 < 3 →
      (fsst_decompress exTableZ 4 exStr 3 (fun _ => 9)).2 (3 - 1) =
        (fun _ => (9 : Nat)) (3 - 1))) :=
  ⟨⟨rfl, by norm_num, by norm_num⟩,
   fsst_zero_termination exTableZ 4 exStr 3 (fun _ => 9) rfl (by norm_num)
     (by norm_num)⟩

/-- Counterexample to C4 as stated: with the zero-terminated flag set and
buffer capacity 0, the final `strOut[size-1] = 0` underflows in `size_t`
and writes 0 at index `2 ^ 64 - 1`, an index `≥ size = 0`: the byte there,
initially 1, is changed by the call. -/
theorem fsst_oob_write_counterexample :
    (fsst_decompress ⟨1, fun _ => 1, fun _ => 0⟩ 0 (fun _ => 0) 0
      (fun _ => 1)).2 (2 ^ 64 - 1) ≠ 1 := by
  have hT : decompTail ⟨1, fun _ => 1, fun _ => 0⟩ (fun _ => 0) 0 0 = [] := by
    rw [decompTail]
    rfl
  rw [fsst_decompress_spec, hT]
  simp [bufSpec, termIndex_zero, Function.update_apply]

/-- C4 amended: provided `size ≥ 1` or the zero-terminated flag is clear,
`fsst_decompress` never changes any output index `≥ size` (first conjunct);
and the result depends on a symbol table entry only through `len` and the
bytes at offsets `0 … 7` of the entry's 8-byte word — with the table
invariant `len[code] ≤ 8`, symbol expansion reads at most 8 bytes of an
entry and only offsets `0 … len[code]-1` (second conjunct). -/
theorem fsst_bounds_amended (d d' : fsst_decoder_t) (lenIn : Nat)
    (strIn : Nat → Nat) (size : Nat) (output : Nat → Nat)
    (hsize : size < 2 ^ 64)
    (hz : d'.zeroTerminated = d.zeroTerminated) (hl : d'.len = d.len)
    (hlen8 : ∀ c, d.len c ≤ 8)
    (hs8 : ∀ c j, j < 8 → symByte (d'.symbol c) j = symByte (d.symbol c) j) :
    ((1 ≤ size ∨ d.zeroTerminated % 2 = 0) →
      ∀ j, size ≤ j →
        (fsst_decompress d lenIn strIn size output).2 j = output j) ∧
    fsst_decompress d' lenIn strIn size output =
      fsst_decompress d lenIn strIn size output := by
  constructor
  · intro h j hj
    have hsnd : (fsst_decompress d lenIn strIn size output).2 =
        (if size ≤ (decompTail d strIn lenIn 0).length ∧
            d.zeroTerminated % 2 = 1 then
          Function.update (bufSpec (decompTail d strIn lenIn 0) 0 size output)
            (termIndex size) 0
        else bufSpec (decompTail d strIn lenIn 0) 0 size output) := by
      rw [fsst_decompress_spec]
    rw [hsnd]
    by_cases hc : size ≤ (decompTail d strIn lenIn 0).length ∧
        d.zeroTerminated % 2 = 1
    · have hsz1 : 1 ≤ size := by
        rcases h with h | h
        · exact h
        · omega
      rw [if_pos hc, Function.update_apply, termIndex_eq size hsz1 hsize,
        if_neg (by omega)]
      simp only [bufSpec]
      rw [if_neg (by omega)]
    · rw [if_neg hc]
      simp only [bufSpec]
      rw [if_neg (by omega)]
  · have hTT : decompTail d' strIn lenIn 0 = decompTail d strIn lenIn 0 :=
      decompTail_congr_table d d' hl
        (fun c j hj => hs8 c j (lt_of_lt_of_le hj (hlen8 c))) strIn lenIn 0
    rw [fsst_decompress_spec, fsst_decompress_spec, hTT, hz]

/-- Witness for C4 (amended): a concrete zero-terminated table with all
symbol lengths 1, capacity 1; indices `≥ 1` keep their prior value 9, and
the run equals itself under the (trivially satisfied) 8-byte agreement. -/
theorem fsst_bounds_amended_witness :
    ((1 : Nat) < 2 ^ 64 ∧
     (∀ c, exTableZ.len c ≤ 8) ∧
     (∀ c j, j < 8 →
       symByte (exTableZ.symbol c) j = symByte (exTableZ.symbol c) j)) ∧
    (((1 ≤ (1 : Nat) ∨ exTableZ.zeroTerminated % 2 = 0) →
      ∀ j, 1 ≤ j →
        (fsst_decompress exTableZ 4 exStr 1 (fun _ => 9)).2 j =
          (fun _ => (9 : Nat)) j) ∧
    fsst_decompress exTableZ 4 exStr 1 (fun _ => 9) =
      fsst_decompress exTableZ 4 exStr 1 (fun _ => 9)) :=
  ⟨⟨by norm_num, by intro c; unfold exTableZ; dsimp only; split_ifs <;> norm_num,
    fun _ _ _ => rfl⟩,
   fsst_bounds_amended exTableZ exTableZ 4 exStr 1 (fun _ => 9) (by norm_num)
     rfl rfl
     (by intro c; unfold exTableZ; dsimp only; split_ifs <;> norm_num)
     (fun _ _ _ => rfl)⟩

/-- Counterexample to C5 as stated: decompressing `[255, 33]` with a
zero-terminated table into a buffer of capacity `size = 1` returns logical
length 1, but the forced terminator overwrites position 0, so the buffer
holds 0 there rather than the escaped byte 33. -/
theorem fsst_escape_overwritten_counterexample :
    (fsst_decompress ⟨1, fun _ => 1, fun _ => 0⟩ 2
      (fun i => if i = 0 then 255 else 33) 1 (fun _ => 7)).1 = 1 ∧
    (fsst_decompress ⟨1, fun _ => 1, fun _ => 0⟩ 2
      (fun i => if i = 0 then 255 else 33) 1 (fun _ => 7)).2 0 ≠ 33 := by
  have hT2 : decompTail ⟨1, fun _ => 1, fun _ => 0⟩
      (fun i => if i = 0 then 255 else 33) 2 2 = [] := by
    rw [decompTail]
    rfl
  have hT : decompTail ⟨1, fun _ => 1, fun _ => 0⟩
      (fun i => if i = 0 then 255 else 33) 2 0 = [33] := by
    rw [decompTail, dif_pos (by norm_num : (0 : Nat) < 2),
      if_neg (by norm_num)]
    norm_num [hT2]
  constructor
  · rw [fsst_decompress_spec, hT]
    rfl
  · rw [fsst_decompress_spec, hT]
    have h1 : (1 : Nat) ≤ ([33] : List Nat).length ∧ (1 : Nat) % 2 = 1 := by
      constructor <;> norm_num
    rw [if_pos h1]
    show Function.update (bufSpec [33] 0 1 (fun _ => 7)) (termIndex 1) 0 0 ≠ 33
    rw [Function.update_apply, termIndex_eq 1 (by norm_num) (by norm_num),
      if_pos rfl]
    norm_num

/-- C5 amended: for every decoder table, byte `b` and capacity `size ≥ 1`,
provided additionally that the zero-terminated flag is clear or `size ≥ 2`
(otherwise the forced terminator overwrites position 0, see the
counterexample), decompressing the two-byte stream `[255, b]` returns
logical length 1 with byte `b` at output position 0.  In general (second
conjunct) an escape unit consumes one extra input byte, writes it only when
the current output position is below `size`, and advances the output cursor
by exactly 1. -/
theorem fsst_escape_fidelity_amended (d : fsst_decoder_t) (strIn : Nat → Nat)
    (size : Nat) (output : Nat → Nat) (b : Nat)
    (h0 : strIn 0 = 255) (h1 : strIn 1 = b) (hsz : 1 ≤ size)
    (hz : d.zeroTerminated % 2 = 0 ∨ 2 ≤ size) :
    ((fsst_decompress d 2 strIn size output).1 = 1 ∧
     (fsst_decompress d 2 strIn size output).2 0 = b) ∧
    ∀ (d2 : fsst_decoder_t) (s2 : Nat → Nat)
      (lenIn2 size2 posIn posOut : Nat) (buf : Nat → Nat),
      posIn < lenIn2 → 255 ≤ s2 posIn →
      decompressLoop d2 s2 lenIn2 size2 posIn posOut buf =
        decompressLoop d2 s2 lenIn2 size2 (posIn + 2) (posOut + 1)
          (if posOut < size2 then Function.update buf posOut (s2 (posIn + 1))
           else buf) := by
  have hT2 : decompTail d strIn 2 2 = [] := by
    rw [decompTail]
    rfl
  have hT : decompTail d strIn 2 0 = [b] := by
    rw [decompTail, dif_pos (by norm_num : (0 : Nat) < 2),
      if_neg (by rw [h0]; omega)]
    norm_num [h1, hT2]
  constructor
  · constructor
    · rw [fsst_decompress_spec, hT]
      rfl
    · have hsnd : (fsst_decompress d 2 strIn size output).2 =
          bufSpec [b] 0 size output := by
        rw [fsst_decompress_spec, hT, if_neg ?hc]
        case hc =>
          intro hc
          have hlb : ([b] : List Nat).length = 1 := rfl
          rcases hz with hz | hz <;> omega
      rw [hsnd]
      simp only [bufSpec]
      rw [if_pos ⟨Nat.le_refl 0, by omega, by norm_num⟩]
      rfl
  · intro d2 s2 lenIn2 size2 posIn posOut buf hp hesc
    conv_lhs => rw [decompressLoop]
    rw [dif_pos hp, if_neg (by omega)]

/-- Witness for C5 (amended) at table `exTable` (not zero-terminated),
stream `[255, 33]` seen through `exStr` shifted by 2, capacity 1. -/
theorem fsst_escape_fidelity_amended_witness :
    ((fun i => exStr (i + 2)) 0 = 255 ∧ (fun i => exStr (i + 2)) 1 = 33 ∧
     (1 : Nat) ≤ 1 ∧ (exTable.zeroTerminated % 2 = 0 ∨ (2 : Nat) ≤ 1)) ∧
    ((fsst_decompress exTable 2 (fun i => exStr (i + 2)) 1 (fun _ => 0)).1 = 1 ∧
     (fsst_decompress exTable 2 (fun i => exStr (i + 2)) 1 (fun _ => 0)).2 0 =
       33) ∧
    ∀ (d2 : fsst_decoder_t) (s2 : Nat → Nat)
      (lenIn2 size2 posIn posOut : Nat) (buf : Nat → Nat),
      posIn < lenIn2 → 255 ≤ s2 posIn →
      decompressLoop d2 s2 lenIn2 size2 posIn posOut buf =
        decompressLoop d2 s2 lenIn2 size2 (posIn + 2) (posOut + 1)
          (if posOut < size2 then Function.update buf posOut (s2 (posIn + 1))
           else buf) :=
  ⟨⟨by decide, by decide, by norm_num, Or.inl rfl⟩,
   fsst_escape_fidelity_amended exTable (fun i => exStr (i + 2)) 1 (fun _ => 0)
     33 (by decide) (by decide) (by norm_num) (Or.inl rfl)⟩

/-- Counterexample to C6 as stated: on empty input with capacity 0 and the
zero-terminated flag set, the call is not write-free: the forced terminator
write lands at index `2 ^ 64 - 1` (the `size_t` value of `size - 1`),
changing that byte from its prior value 5 to 0. -/
theorem fsst_empty_input_write_counterexample :
    (fsst_decompress ⟨1, fun _ => 2, fun _ => 0⟩ 0 (fun _ => 0) 0
      (fun _ => 5)).2 (2 ^ 64 - 1) ≠ 5 := by
  have hT : decompTail ⟨1, fun _ => 2, fun _ => 0⟩ (fun _ => 0) 0 0 = [] := by
    rw [decompTail]
    rfl
  rw [fsst_decompress_spec, hT]
  simp [bufSpec, termIndex_zero, Function.update_apply]

/-- C6 amended: on empty input `fsst_decompress` returns logical length 0
and, provided `size ≥ 1` or the zero-terminated flag is clear (see the
counterexample for `size = 0` with the flag set), writes nothing: every
buffer byte keeps its prior value. -/
theorem fsst_empty_input_amended (d : fsst_decoder_t) (strIn : Nat → Nat)
    (size : Nat) (output : Nat → Nat)
    (h : 1 ≤ size ∨ d.zeroTerminated % 2 = 0) :
    (fsst_decompress d 0 strIn size output).1 = 0 ∧
    ∀ i, (fsst_decompress d 0 strIn size output).2 i = output i := by
  have hT : decompTail d strIn 0 0 = [] := by
    rw [decompTail]
    rfl
  constructor
  · rw [fsst_decompress_spec, hT]
    rfl
  · intro i
    have hsnd : (fsst_decompress d 0 strIn size output).2 =
        bufSpec [] 0 size output := by
      rw [fsst_decompress_spec, hT, if_neg ?hc]
      case hc =>
        intro hc
        have hl0 : ([] : List Nat).length = 0 := rfl
        rcases h with h | h <;> omega
    rw [hsnd, bufSpec_nil]

/-- Witness for C6 (amended): empty input, capacity 3, zero-terminated
table; the returned length is 0 and every buffer byte keeps its value 8. -/
theorem fsst_empty_input_amended_witness :
    ((1 : Nat) ≤ 3 ∨ exTableZ.zeroTerminated % 2 = 0) ∧
    ((fsst_decompress exTableZ 0 exStr 3 (fun _ => 8)).1 = 0 ∧
     ∀ i, (fsst_decompress exTableZ 0 exStr 3 (fun _ => 8)).2 i =
       (fun _ => (8 : Nat)) i) :=
  ⟨Or.inl (by norm_num),
   fsst_empty_input_amended exTableZ exStr 3 (fun _ => 8)
     (Or.inl (by norm_num))⟩

/-- C7: copy-loop refinement.  The decompressor built on the source's
negative-offset pointer copy (`copyLoop` via `symbolPointer`) and the one
built on the spec's straightforward clamped per-byte copy (`clampedCopy`)
are extensionally equal: for every table, input, capacity and buffer they
produce the same returned length and the same buffer contents, both at the
whole-function level and at the loop level. -/
theorem fsst_copy_refinement (d : fsst_decoder_t) (lenIn : Nat)
    (strIn : Nat → Nat) (size : Nat) (output : Nat → Nat) :
    fsst_decompress_clamped d lenIn strIn size output =
      fsst_decompress d lenIn strIn size output ∧
    ∀ posIn posOut (buf : Nat → Nat),
      decompressLoopClamped d strIn lenIn size posIn posOut buf =
        decompressLoop d strIn lenIn size posIn posOut buf := by
  constructor
  · simp only [fsst_decompress_clamped, fsst_decompress,
      decompressLoopClamped_eq]
  · intro posIn posOut buf
    exact decompressLoopClamped_eq d strIn lenIn size posIn posOut buf

/-- C8: termination and monotone cursors.  `decompressLoop` is a total
function (its recursion is well-founded on `lenIn - posIn`, each iteration
strictly increasing `posIn` by 1 or 2, bounded by `lenIn`); the final input
cursor is at least the initial one, the final output cursor is at least the
initial one, the final input cursor is at least `lenIn` (the loop exits only
once all input is consumed), a non-exhausted input strictly advances the
input cursor, and on a well-formed stream (no escape marker as its last
byte) the loop exits with the input cursor exactly at `lenIn`. -/
theorem fsst_loop_cursors (d : fsst_decoder_t) (strIn : Nat → Nat)
    (lenIn size posIn posOut : Nat) (buf : Nat → Nat) :
    posIn ≤ (decompressLoop d strIn lenIn size posIn posOut buf).1 ∧
    posOut ≤ (decompressLoop d strIn lenIn size posIn posOut buf).2.1 ∧
    lenIn ≤ (decompressLoop d strIn lenIn size posIn posOut buf).1 ∧
    (posIn < lenIn →
      posIn < (decompressLoop d strIn lenIn size posIn posOut buf).1) ∧
    ((lenIn = 0 ∨ strIn (lenIn - 1) < 255) → posIn ≤ lenIn →
      (decompressLoop d strIn lenIn size posIn posOut buf).1 = lenIn) := by
  rw [decompressLoop_spec]
  have hb := finalPosIn_bounds strIn lenIn posIn
  refine ⟨?_, ?_, ?_, ?_, ?_⟩
  · show posIn ≤ finalPosIn strIn lenIn posIn
    exact hb.1
  · show posOut ≤ posOut + (decompTail d strIn lenIn posIn).length
    omega
  · show lenIn ≤ finalPosIn strIn lenIn posIn
    exact hb.2
  · intro h
    show posIn < finalPosIn strIn lenIn posIn
    omega
  · intro hwf hle
    show finalPosIn strIn lenIn posIn = lenIn
    exact finalPosIn_wf strIn lenIn posIn hwf hle

/-- Witness for C8 at the example stream: starting from both cursors at 0,
the loop ends with the input cursor exactly at `lenIn = 4`. -/
theorem fsst_loop_cursors_witness :
    ((4 : Nat) = 0 ∨ exStr (4 - 1) < 255) ∧ (0 : Nat) ≤ 4 ∧
    (decompressLoop exTable exStr 4 6 0 0 (fun _ => 0)).1 = 4 :=
  ⟨Or.inr (by decide), by norm_num,
   (fsst_loop_cursors exTable exStr 4 6 0 0 (fun _ => 0)).2.2.2.2
     (Or.inr (by decide)) (by norm_num)⟩

/-- C9: determinism / equality preservation.  Two compressed sequences that
agree byte-for-byte on the input window `[0, lenIn)` decompress under the
same table, capacity and initial buffer to the same returned logical length
unconditionally, and — on well-formed streams (the spec's data model:
without a dangling escape marker, which would make the C code read past the
input) — to an identical result, buffer contents included. -/
theorem fsst_deterministic (d : fsst_decoder_t) (lenIn : Nat)
    (s1 s2 : Nat → Nat) (size : Nat) (output : Nat → Nat)
    (hag : ∀ i, i < lenIn → s1 i = s2 i) :
    (fsst_decompress d lenIn s1 size output).1 =
      (fsst_decompress d lenIn s2 size output).1 ∧
    ((lenIn = 0 ∨ s1 (lenIn - 1) < 255) →
      fsst_decompress d lenIn s1 size output =
        fsst_decompress d lenIn s2 size output) := by
  constructor
  · rw [fsst_decompress_spec, fsst_decompress_spec]
    show (decompTail d s1 lenIn 0).length = (decompTail d s2 lenIn 0).length
    rw [decompTail_length, decompTail_length]
    exact logicalLength_congr d s1 s2 lenIn 0 hag
  · intro hwf
    rw [fsst_decompress_spec, fsst_decompress_spec,
      decompTail_congr d s1 s2 lenIn 0 hag hwf]

/-- Witness for C9: `exStr` and a function equal to it below index 4 but
different above; the two runs coincide. -/
theorem fsst_deterministic_witness :
    (∀ i, i < 4 → exStr i = (fun j => if j < 4 then exStr j else 255) i) ∧
    ((fsst_decompress exTable 4 exStr 6 (fun _ => 0)).1 =
      (fsst_decompress exTable 4 (fun j => if j < 4 then exStr j else 255) 6
        (fun _ => 0)).1 ∧
    (((4 : Nat) = 0 ∨ exStr (4 - 1) < 255) →
      fsst_decompress exTable 4 exStr 6 (fun _ => 0) =
        fsst_decompress exTable 4 (fun j => if j < 4 then exStr j else 255) 6
          (fun _ => 0))) :=
  ⟨fun _ hi => (if_pos hi).symm,
   fsst_deterministic exTable 4 exStr
     (fun j => if j < 4 then exStr j else 255) 6 (fun _ => 0)
     (fun _ hi => (if_pos hi).symm)⟩

/-- Counterexample to C10 as stated: with capacity 0 and the
zero-terminated flag set, the index `2 ^ 64 - 1` is `≥ min (L, size) = 0`
and is not `size - 1` under any mathematical reading of that expression for
`size = 0`, yet its byte is changed from 3 to 0 by the forced terminator
write (whose `size_t` index wraps to `2 ^ 64 - 1`). -/
theorem fsst_frame_violation_counterexample :
    (fsst_decompress ⟨1, fun _ => 1, fun _ => 0⟩ 0 (fun _ => 0) 0
      (fun _ => 3)).2 (2 ^ 64 - 1) ≠ 3 := by
  have hT : decompTail ⟨1, fun _ => 1, fun _ => 0⟩ (fun _ => 0) 0 0 = [] := by
    rw [decompTail]
    rfl
  rw [fsst_decompress_spec, hT]
  simp [bufSpec, termIndex_zero, Function.update_apply]

/-- C10 amended: provided `size ≥ 1`, `fsst_decompress` leaves every output
byte at an index `≥ min (L, size)` unchanged (the only forced write, the
terminator at `size - 1` when the flag is set and `size ≤ L`, lands below
`min (L, size)` in that case), and that terminator byte is indeed 0. -/
theorem fsst_frame_amended (d : fsst_decoder_t) (lenIn : Nat)
    (strIn : Nat → Nat) (size : Nat) (output : Nat → Nat)
    (h1 : 1 ≤ size) (h2 : size < 2 ^ 64) :
    (∀ j, min (fsst_decompress d lenIn strIn size output).1 size ≤ j →
      ¬(d.zeroTerminated % 2 = 1 ∧
          size ≤ (fsst_decompress d lenIn strIn size output).1 ∧
          j = size - 1) →
      (fsst_decompress d lenIn strIn size output).2 j = output j) ∧
    (d.zeroTerminated % 2 = 1 →
      size ≤ (fsst_decompress d lenIn strIn size output).1 →
      (fsst_decompress d lenIn strIn size output).2 (size - 1) = 0) := by
  have hfst : (fsst_decompress d lenIn strIn size output).1 =
      (decompTail d strIn lenIn 0).length := by
    rw [fsst_decompress_spec]
  have hsnd : (fsst_decompress d lenIn strIn size output).2 =
      (if size ≤ (decompTail d strIn lenIn 0).length ∧
          d.zeroTerminated % 2 = 1 then
        Function.update (bufSpec (decompTail d strIn lenIn 0) 0 size output)
          (termIndex size) 0
      else bufSpec (decompTail d strIn lenIn 0) 0 size output) := by
    rw [fsst_decompress_spec]
  rw [hfst, hsnd]
  constructor
  · intro j hj hexc
    by_cases hc : size ≤ (decompTail d strIn lenIn 0).length ∧
        d.zeroTerminated % 2 = 1
    · rw [if_pos hc, Function.update_apply, termIndex_eq size h1 h2,
        if_neg (by omega)]
      simp only [bufSpec]
      rw [if_neg (by omega)]
    · rw [if_neg hc]
      simp only [bufSpec]
      rw [if_neg (by omega)]
  · intro hzt hL
    rw [if_pos ⟨hL, hzt⟩, Function.update_apply, termIndex_eq size h1 h2,
      if_pos rfl]

/-- Witness for C10 (amended) at the zero-terminated example: capacity 3,
logical length 6; bytes at indices `≥ 3` keep their prior value 9, and
index 2 holds the forced terminator 0. -/
theorem fsst_frame_amended_witness :
    ((1 : Nat) ≤ 3 ∧ (3 : Nat) < 2 ^ 64) ∧
    ((∀ j, min (fsst_decompress exTableZ 4 exStr 3 (fun _ => 9)).1 3 ≤ j →
      ¬(exTableZ.zeroTerminated % 2 = 1 ∧
          3 ≤ (fsst_decompress exTableZ 4 exStr 3 (fun _ => 9)).1 ∧
          j = 3 - 1) →
      (fsst_decompress exTableZ 4 exStr 3 (fun _ => 9)).2 j =
        (fun _ => (9 : Nat)) j) ∧
    (exTableZ.zeroTerminated % 2 = 1 →
      3 ≤ (fsst_decompress exTableZ 4 exStr 3 (fun _ => 9)).1 →
      (fsst_decompress exTableZ 4 exStr 3 (fun _ => 9)).2 (3 - 1) = 0)) :=
  ⟨⟨by norm_num, by norm_num⟩,
   fsst_frame_amended exTableZ 4 exStr 3 (fun _ => 9) (by norm_num)
     (by norm_num)⟩
